import Mathlib

/-!
Verification of the transcript-extraction tool (`app.py`).

Strings are modelled as `List Char`.  The pure text transforms
(`parse_vtt`, `sanitize_filename`) are translated directly from the
source; the per-URL pipeline (`process_url`) is modelled as a function
of the URL and a `World` describing the outcomes of the external steps
(navigation, player interaction, subtitle arrival, page title), together
with the ordered list of session events it performs.  The network
response handler and the concurrent orchestrator are modelled
explicitly as well.
-/

/-- ASCII whitespace, as recognised by Python's `str.strip` / `\s`. -/
def pyIsSpace (c : Char) : Bool :=
  c == ' ' || c == '\t' || c == '\n' || c == '\r' || c == '\x0b' || c == '\x0c'

/-- Python `str.strip()`: drop whitespace from both ends. -/
def pyStrip (l : List Char) : List Char :=
  ((l.dropWhile pyIsSpace).reverse.dropWhile pyIsSpace).reverse

/-- Does `needle` occur at the start of `hay`? -/
def beginsWith : List Char → List Char → Bool
  | [], _ => true
  | _ :: _, [] => false
  | n :: ns, h :: hs => n == h && beginsWith ns hs

/-- Python `needle in hay`: substring occurrence. -/
def hasSub (needle : List Char) : List Char → Bool
  | [] => needle.isEmpty
  | c :: rest => beginsWith needle (c :: rest) || hasSub needle rest

/-- Python `str.isdigit()` (ASCII digits): nonempty and all digits. -/
def pyIsdigit (l : List Char) : Bool :=
  !l.isEmpty && l.all (fun c => c.isDigit)

/-- The characters of a string literal. -/
def strL (s : String) : List Char :=
  s.toList

/-- Python `s.split('\n')`. -/
def splitLines : List Char → List (List Char)
  | [] => [[]]
  | c :: cs =>
    if c = '\n' then [] :: splitLines cs
    else
      match splitLines cs with
      | [] => [[c]]
      | l :: ls => (c :: l) :: ls

/-- Python `'\n'.join(lines)`. -/
def joinLines : List (List Char) → List Char
  | [] => []
  | [l] => l
  | l :: ls => l ++ '\n' :: joinLines ls

/-- Scanner for `re.sub(r'>>\s*', '', line)`: `skip` records that a
marker was just consumed and trailing whitespace is being eaten. -/
def stripAux : Bool → List Char → List Char
  | _, [] => []
  | skip, [c] => if skip && pyIsSpace c then [] else [c]
  | skip, c1 :: c2 :: rest =>
    if skip && pyIsSpace c1 then stripAux true (c2 :: rest)
    else if c1 = '>' ∧ c2 = '>' then stripAux true rest
    else c1 :: stripAux false (c2 :: rest)

/-- `re.sub(r'>>\s*', '', line)`: remove every occurrence of the
marker pattern (two `>` glyphs and any following whitespace). -/
def stripMarkers (l : List Char) : List Char :=
  stripAux false l

/-- The skip filter of `parse_vtt`: a line is kept when it is nonempty
after trimming, does not contain `WEBVTT`, does not contain `-->`, and
its trimmed form is not composed solely of digits. -/
def keepLine (l : List Char) : Bool :=
  !(pyStrip l).isEmpty && !hasSub (strL "WEBVTT") l && !hasSub (strL "-->") l
    && !pyIsdigit (pyStrip l)

/-- `cleaned_line = re.sub(r'>>\s*', '', line).strip()`. -/
def cleanLine (l : List Char) : List Char :=
  pyStrip (stripMarkers l)

/-- The main loop of `parse_vtt`, carrying the `seen_lines` set. -/
def parseLoop : List (List Char) → List (List Char) → List (List Char)
  | [], _ => []
  | l :: ls, seen =>
    if keepLine l then
      let c := cleanLine l
      if c ≠ [] ∧ c ∉ seen then c :: parseLoop ls (c :: seen)
      else parseLoop ls seen
    else parseLoop ls seen

/-- The transcript lines produced by `parse_vtt`. -/
def parseVttLines (s : List Char) : List (List Char) :=
  parseLoop (splitLines (pyStrip s)) []

/-- `parse_vtt`: transcript lines joined with newlines. -/
def parse_vtt (s : List Char) : List Char :=
  joinLines (parseVttLines s)

/-- The surviving lines of the input, after cleaning (including lines
whose cleaned form is empty). -/
def cleanedAll (s : List Char) : List (List Char) :=
  ((splitLines (pyStrip s)).filter keepLine).map cleanLine

/-- The surviving lines of the input whose cleaned form is nonempty. -/
def cleanedList (s : List Char) : List (List Char) :=
  (cleanedAll s).filter (fun c => !c.isEmpty)

/-- First-occurrence deduplication with an initial seen set. -/
def dedupFrom (seen : List (List Char)) : List (List Char) → List (List Char)
  | [] => []
  | c :: cs => if c ∈ seen then dedupFrom seen cs else c :: dedupFrom (c :: seen) cs

/-- Number of occurrences of `c`. -/
def countL (c : List Char) : List (List Char) → Nat
  | [] => 0
  | x :: xs => (if x = c then 1 else 0) + countL c xs

/-- Index of the first occurrence of `c` (length if absent). -/
def firstIdx (c : List Char) : List (List Char) → Nat
  | [] => 0
  | x :: xs => if x = c then 0 else firstIdx c xs + 1

/-- The character class `[\\/*?:"<>|]` of `sanitize_filename`. -/
def illegalChar (c : Char) : Bool :=
  c == '\\' || c == '/' || c == '*' || c == '?' || c == ':' || c == '"'
    || c == '<' || c == '>' || c == '|'

/-- `re.sub(r'[\\/*?:"<>|]', "", name)`. -/
def removeIllegal (l : List Char) : List Char :=
  l.filter (fun c => !illegalChar c)

/-- `re.sub(r'[\\/*?:"<>|]', "", name).strip()`. -/
def cleanedName (l : List Char) : List Char :=
  pyStrip (removeIllegal l)

/-- `sanitize_filename`: remove illegal characters, trim, truncate to
150 characters appending `...` when truncation occurred. -/
def sanitize_filename (l : List Char) : List Char :=
  if 150 < (cleanedName l).length then (cleanedName l).take 150 ++ strL "..."
  else cleanedName l

/-- Which platform a URL belongs to, by substring matching. -/
inductive PlatformKind
  | granicus
  | viebit
  | unsupported
deriving DecidableEq

/-- The platform checks of `process_url`: `"granicus.com" in url`,
then `"viebit.com" in url`, else unsupported. -/
def classify (url : List Char) : PlatformKind :=
  if hasSub (strL "granicus.com") url then .granicus
  else if hasSub (strL "viebit.com") url then .viebit
  else .unsupported

/-- Outcome of awaiting the subtitle payload (`asyncio.wait_for`):
deadline elapsed, the stored exception, or the payload text. -/
inductive VttOutcome
  | timeout
  | errored (e : List Char)
  | payload (p : List Char)
deriving DecidableEq

/-- The behaviour of the external world during one session: outcome of
navigation, of the platform interaction, of the payload wait, and the
page title. -/
structure World where
  navError : Option (List Char)
  interactError : Option (List Char)
  vtt : VttOutcome
  title : List Char
deriving DecidableEq

/-- Observable session events, in the order `process_url` performs
them. -/
inductive SessionEvent
  | launch
  | navStart
  | navOk
  | interactOk
  | interactFail
  | vttOk
  | close
deriving DecidableEq

/-- `process_url`, with its event trace.  The browser is launched and
navigation started before the platform check; every path runs the
`finally` that closes the browser before returning. -/
def process_url_full (url : List Char) (w : World) :
    (List Char × Option (List Char)) × List SessionEvent :=
  match w.navError with
  | some e =>
    ((strL "Error: " ++ e, none),
      [.launch, .navStart, .close])
  | none =>
    match classify url with
    | .unsupported =>
      ((strL "Unsupported platform", none),
        [.launch, .navStart, .navOk, .close])
    | _ =>
      match w.interactError with
      | some e =>
        ((strL "Error: " ++ e, none),
          [.launch, .navStart, .navOk, .interactFail, .close])
      | none =>
        match w.vtt with
        | .timeout =>
          ((strL "Timeout waiting for VTT file", none),
            [.launch, .navStart, .navOk, .interactOk, .close])
        | .errored e =>
          ((strL "Error: " ++ e, none),
            [.launch, .navStart, .navOk, .interactOk, .close])
        | .payload p =>
          ((parse_vtt p, some (sanitize_filename w.title ++ strL ".txt")),
            [.launch, .navStart, .navOk, .interactOk, .vttOk, .close])

/-- The `(transcript, filename)` pair returned by `process_url`. -/
def process_url (url : List Char) (w : World) : List Char × Option (List Char) :=
  (process_url_full url w).1

/-- Outcome of `await response.text()`: the body, or the exception
stored in the future by `set_exception`. -/
inductive BodyRead
  | ok (t : List Char)
  | failed (e : List Char)
deriving DecidableEq

/-- A network response: its URL and the outcome of reading its body. -/
structure NetResponse where
  url : List Char
  text : BodyRead
deriving DecidableEq

/-- `handle_response`: record the body of a response whose URL contains
`.vtt` only when no payload has been recorded yet. -/
def handle_response (slot : Option BodyRead)
    (r : NetResponse) : Option BodyRead :=
  if hasSub (strL ".vtt") r.url ∧ slot = none then some r.text else slot

/-- Completion model for `asyncio.gather`: tasks finish in the order
given, each storing its result in the slot of its own index. -/
def fillSlots (f : Nat → List Char × Option (List Char)) :
    List Nat → List (Option (List Char × Option (List Char)))
      → List (Option (List Char × Option (List Char)))
  | [], slots => slots
  | j :: rest, slots => fillSlots f rest (slots.set j (some (f j)))

/-- `run_all`: one task per URL, results correlated back to the input
index, for an arbitrary completion order. -/
def run_all (urls : List (List Char)) (w : Nat → World) (order : List Nat) :
    List (Option (List Char × Option (List Char))) :=
  fillSlots (fun j => process_url (urls.getD j []) (w j)) order
    (List.replicate urls.length none)

/-! ### Substring and trimming infrastructure -/

theorem dropWhile_length_le {α : Type*} (p : α → Bool) (l : List α) :
    (l.dropWhile p).length ≤ l.length := by
  induction l with
  | nil => simp
  | cons c cs ih =>
    rw [List.dropWhile_cons]
    split
    · exact le_trans ih (Nat.le_succ _)
    · exact le_refl _

theorem dropWhile_eq_self_of_length {α : Type*} {p : α → Bool} {l : List α}
    (h : (l.dropWhile p).length = l.length) : l.dropWhile p = l := by
  have hsplit := List.takeWhile_append_dropWhile p l
  have hlen := congrArg List.length hsplit
  rw [List.length_append] at hlen
  have ht : (l.takeWhile p).length = 0 := by omega
  rw [List.length_eq_zero] at ht
  rw [ht] at hsplit
  simpa using hsplit

theorem head_not_of_dropWhile_self {α : Type*} {p : α → Bool} {c : α} {cs : List α}
    (h : List.dropWhile p (c :: cs) = c :: cs) : p c = false := by
  cases hpc : p c with
  | false => rfl
  | true =>
    rw [List.dropWhile_cons, hpc] at h
    have := congrArg List.length h
    have hle := dropWhile_length_le p cs
    simp at this
    omega

theorem pyStrip_parts {l : List Char} (h : pyStrip l = l) :
    l.dropWhile pyIsSpace = l ∧ l.reverse.dropWhile pyIsSpace = l.reverse := by
  have h1 : (pyStrip l).length ≤ (l.dropWhile pyIsSpace).length := by
    unfold pyStrip
    rw [List.length_reverse]
    calc ((l.dropWhile pyIsSpace).reverse.dropWhile pyIsSpace).length
        ≤ (l.dropWhile pyIsSpace).reverse.length := dropWhile_length_le _ _
      _ = (l.dropWhile pyIsSpace).length := List.length_reverse _
  rw [h] at h1
  have h2 := dropWhile_length_le pyIsSpace l
  have hd : l.dropWhile pyIsSpace = l := dropWhile_eq_self_of_length (by omega)
  refine ⟨hd, ?_⟩
  have h3 : pyStrip l = (l.reverse.dropWhile pyIsSpace).reverse := by
    unfold pyStrip; rw [hd]
  rw [h] at h3
  have := congrArg List.reverse h3
  rw [List.reverse_reverse] at this
  exact this.symm

theorem pyStrip_decomp (l : List Char) : ∃ u v, l = u ++ pyStrip l ++ v := by
  refine ⟨l.takeWhile pyIsSpace,
    ((l.dropWhile pyIsSpace).reverse.takeWhile pyIsSpace).reverse, ?_⟩
  conv_lhs => rw [← List.takeWhile_append_dropWhile pyIsSpace l]
  rw [List.append_assoc]
  congr 1
  have hsplit := List.takeWhile_append_dropWhile pyIsSpace (l.dropWhile pyIsSpace).reverse
  have := congrArg List.reverse hsplit
  rw [List.reverse_append, List.reverse_reverse] at this
  exact this.symm

theorem beginsWith_refl (l : List Char) : beginsWith l l = true := by
  induction l with
  | nil => rfl
  | cons c cs ih => simp [beginsWith, ih]

theorem beginsWith_append {n h : List Char} (g : List Char)
    (hb : beginsWith n h = true) : beginsWith n (h ++ g) = true := by
  induction n generalizing h with
  | nil => rfl
  | cons a ns ih =>
    cases h with
    | nil => simp [beginsWith] at hb
    | cons b hs =>
      simp only [beginsWith, Bool.and_eq_true, beq_iff_eq] at hb
      simp only [List.cons_append, beginsWith, Bool.and_eq_true, beq_iff_eq]
      exact ⟨hb.1, ih hb.2⟩

theorem hasSub_nil (h : List Char) : hasSub [] h = true := by
  cases h with
  | nil => rfl
  | cons c cs => simp [hasSub, beginsWith]

theorem hasSub_self (n : List Char) : hasSub n n = true := by
  cases n with
  | nil => rfl
  | cons c cs => simp [hasSub, beginsWith_refl]

theorem hasSub_append_right {n h : List Char} (g : List Char)
    (hs : hasSub n h = true) : hasSub n (g ++ h) = true := by
  induction g with
  | nil => simpa using hs
  | cons c g' ih => simp [hasSub, ih]

theorem hasSub_append_left {n h : List Char} (g : List Char)
    (hs : hasSub n h = true) : hasSub n (h ++ g) = true := by
  induction h with
  | nil =>
    have hn : n = [] := by
      cases n with
      | nil => rfl
      | cons a ns => simp [hasSub] at hs
    rw [hn]
    exact hasSub_nil _
  | cons c hs' ih =>
    simp only [hasSub, Bool.or_eq_true] at hs
    rcases hs with hb | ht
    · simp only [List.cons_append, hasSub, Bool.or_eq_true]
      exact Or.inl (beginsWith_append g hb)
    · simp only [List.cons_append, hasSub, Bool.or_eq_true]
      exact Or.inr (ih ht)

theorem hasSub_pyStrip {n l : List Char} (hs : hasSub n (pyStrip l) = true) :
    hasSub n l = true := by
  obtain ⟨u, v, hl⟩ := pyStrip_decomp l
  rw [hl, List.append_assoc]
  exact hasSub_append_right u (hasSub_append_left v hs)

/-! ### The marker scanner -/

theorem stripAux_cons_ne {c : Char} (hc : c ≠ '>') (cs : List Char) :
    stripAux false (c :: cs) = c :: stripAux false cs := by
  cases cs with
  | nil => simp [stripAux]
  | cons c2 rest => simp [stripAux, hc]

theorem stripAux_no_marker (skip : Bool) (l : List Char) :
    hasSub (strL ">>") (stripAux skip l) = false := by
  induction skip, l using stripAux.induct with
  | case1 x =>
    simp only [stripAux]
    decide
  | case2 skip c hcond =>
    simp only [stripAux, if_pos hcond]
    decide
  | case3 skip c hcond =>
    simp only [stripAux, if_neg hcond]
    have hgg : strL ">>" = ['>', '>'] := rfl
    rw [hgg]
    simp [hasSub, beginsWith]
  | case4 skip c1 c2 rest hcond ih =>
    simp only [stripAux, if_pos hcond]
    exact ih
  | case5 skip c1 c2 rest hcond1 hcond2 ih =>
    simp only [stripAux, if_neg hcond1, if_pos hcond2]
    exact ih
  | case6 skip c1 c2 rest hcond1 hcond2 ih =>
    simp only [stripAux, if_neg hcond1, if_neg hcond2]
    have hgg : strL ">>" = ['>', '>'] := rfl
    rw [hgg] at ih ⊢
    simp only [hasSub, Bool.or_eq_false_iff]
    refine ⟨?_, ih⟩
    by_cases hc1 : c1 = '>'
    · have hc2 : c2 ≠ '>' := fun h2 => hcond2 ⟨hc1, h2⟩
      have hc2' : ¬('>' = c2) := fun h => hc2 h.symm
      rw [stripAux_cons_ne hc2]
      simp [beginsWith, hc2']
    · have hc1' : ¬('>' = c1) := fun h => hc1 h.symm
      simp [beginsWith, hc1']

theorem stripMarkers_eq_self {l : List Char}
    (h : hasSub (strL ">>") l = false) : stripMarkers l = l := by
  unfold stripMarkers
  induction l with
  | nil => rfl
  | cons c cs ih =>
    have hgg : strL ">>" = ['>', '>'] := rfl
    rw [hgg] at h
    simp only [hasSub, Bool.or_eq_false_iff] at h
    have hstep : stripAux false (c :: cs) = c :: stripAux false cs := by
      by_cases hc : c = '>'
      · subst hc
        cases cs with
        | nil => simp [stripAux]
        | cons c2 rest =>
          have hc2 : c2 ≠ '>' := by
            intro h2
            subst h2
            simp [beginsWith] at h
          simp [stripAux, hc2]
      · exact stripAux_cons_ne hc cs
    rw [hstep, ih (by rw [hgg]; exact h.2)]

/-! ### The parse loop as first-occurrence deduplication -/

theorem parseLoop_eq (ls : List (List Char)) : ∀ (seen : List (List Char)),
    parseLoop ls seen =
      dedupFrom seen (((ls.filter keepLine).map cleanLine).filter
        (fun c => !c.isEmpty)) := by
  induction ls with
  | nil => intro seen; rfl
  | cons l ls ih =>
    intro seen
    by_cases hk : keepLine l
    · by_cases he : cleanLine l = []
      · simp [parseLoop, hk, he, List.filter_cons, ih]
      · by_cases hs : cleanLine l ∈ seen
        · simp [parseLoop, hk, he, hs, List.filter_cons, dedupFrom, ih,
            List.isEmpty_iff]
        · simp [parseLoop, hk, he, hs, List.filter_cons, dedupFrom, ih,
            List.isEmpty_iff]
    · simp [parseLoop, hk, List.filter_cons, ih]

theorem parseVttLines_eq (s : List Char) :
    parseVttLines s = dedupFrom [] (cleanedList s) := by
  unfold parseVttLines cleanedList cleanedAll
  exact parseLoop_eq _ _

theorem dedupFrom_subset {c : List Char} : ∀ {L seen : List (List Char)},
    c ∈ dedupFrom seen L → c ∈ L := by
  intro L
  induction L with
  | nil => intro seen h; simp [dedupFrom] at h
  | cons x xs ih =>
    intro seen h
    unfold dedupFrom at h
    split at h
    · exact List.mem_cons_of_mem _ (ih h)
    · rcases List.mem_cons.1 h with h1 | h2
      · exact h1 ▸ List.mem_cons_self _ _
      · exact List.mem_cons_of_mem _ (ih h2)

theorem countL_dedupFrom_zero (c : List Char) : ∀ (L seen : List (List Char)),
    c ∈ seen → countL c (dedupFrom seen L) = 0 := by
  intro L
  induction L with
  | nil => intro seen _; rfl
  | cons x xs ih =>
    intro seen hs
    unfold dedupFrom
    by_cases hx : x ∈ seen
    · rw [if_pos hx]
      exact ih seen hs
    · rw [if_neg hx]
      have hxc : x ≠ c := fun h => hx (h ▸ hs)
      simp only [countL, if_neg hxc, Nat.zero_add]
      exact ih (x :: seen) (List.mem_cons_of_mem _ hs)

theorem countL_dedupFrom_one (c : List Char) : ∀ (L seen : List (List Char)),
    c ∉ seen → c ∈ L → countL c (dedupFrom seen L) = 1 := by
  intro L
  induction L with
  | nil => intro seen _ h2; exact absurd h2 (List.not_mem_nil c)
  | cons x xs ih =>
    intro seen hns hmem
    unfold dedupFrom
    by_cases hx : x ∈ seen
    · rw [if_pos hx]
      have hxc : x ≠ c := fun h => hns (h ▸ hx)
      have hcx : c ∈ xs := by
        rcases List.mem_cons.1 hmem with h1 | h2
        · exact absurd h1.symm hxc
        · exact h2
      exact ih seen hns hcx
    · rw [if_neg hx]
      by_cases hxc : x = c
      · subst hxc
        simp only [countL, if_pos rfl]
        rw [countL_dedupFrom_zero x xs (x :: seen) (List.mem_cons_self _ _)]
        simp
      · simp only [countL, if_neg hxc, Nat.zero_add]
        have hcx : c ∈ xs := by
          rcases List.mem_cons.1 hmem with h1 | h2
          · exact absurd h1.symm hxc
          · exact h2
        refine ih (x :: seen) ?_ hcx
        intro hmem2
        rcases List.mem_cons.1 hmem2 with h1 | h2
        · exact hxc h1.symm
        · exact hns h2

theorem firstIdx_dedupFrom (c : List Char) : ∀ (L seen : List (List Char)),
    c ∉ seen → c ∈ L →
    firstIdx c (dedupFrom seen L) =
      (dedupFrom seen (L.take (firstIdx c L))).length := by
  intro L
  induction L with
  | nil => intro seen _ h2; exact absurd h2 (List.not_mem_nil c)
  | cons x xs ih =>
    intro seen hns hmem
    by_cases hxc : x = c
    · subst hxc
      simp only [firstIdx, if_pos rfl, List.take_zero]
      unfold dedupFrom
      rw [if_neg hns]
      simp [firstIdx]
    · have hcx : c ∈ xs := by
        rcases List.mem_cons.1 hmem with h1 | h2
        · exact absurd h1.symm hxc
        · exact h2
      have hfi : firstIdx c (x :: xs) = firstIdx c xs + 1 := by
        simp [firstIdx, hxc]
      rw [hfi, List.take_succ_cons]
      by_cases hx : x ∈ seen
      · unfold dedupFrom
        rw [if_pos hx, if_pos hx]
        exact ih seen hns hcx
      · unfold dedupFrom
        rw [if_neg hx, if_neg hx]
        simp only [firstIdx, if_neg hxc, List.length_cons]
        have hns2 : c ∉ x :: seen := by
          intro hmem2
          rcases List.mem_cons.1 hmem2 with h1 | h2
          · exact hxc h1.symm
          · exact hns h2
        rw [ih (x :: seen) hns2 hcx]

theorem dedupFrom_eq_self : ∀ (L seen : List (List Char)), L.Nodup →
    (∀ c ∈ L, c ∉ seen) → dedupFrom seen L = L := by
  intro L
  induction L with
  | nil => intro seen _ _; rfl
  | cons x xs ih =>
    intro seen hnd hdisj
    have hx : x ∉ seen := hdisj x (List.mem_cons_self _ _)
    unfold dedupFrom
    rw [if_neg hx]
    have hnd2 := List.nodup_cons.1 hnd
    congr 1
    refine ih (x :: seen) hnd2.2 ?_
    intro c hc hmem
    rcases List.mem_cons.1 hmem with h1 | h2
    · exact hnd2.1 (h1 ▸ hc)
    · exact hdisj c (List.mem_cons_of_mem _ hc) h2

theorem countL_filter_nonempty {c : List Char} (hc : c ≠ [])
    (L : List (List Char)) :
    countL c (L.filter (fun x => !x.isEmpty)) = countL c L := by
  induction L with
  | nil => rfl
  | cons x xs ih =>
    rw [List.filter_cons]
    by_cases hx : x.isEmpty
    · have hxe : x = [] := List.isEmpty_iff.1 hx
      have hxc : x ≠ c := by rw [hxe]; exact fun h => hc h.symm
      simp [hx, countL, hxc, ih]
    · simp only [hx, Bool.not_false, if_pos]
      simp [countL, ih]

theorem mem_of_countL_pos {c : List Char} : ∀ {L : List (List Char)},
    1 ≤ countL c L → c ∈ L := by
  intro L
  induction L with
  | nil => intro h; simp [countL] at h
  | cons x xs ih =>
    intro h
    by_cases hxc : x = c
    · exact hxc ▸ List.mem_cons_self _ _
    · simp only [countL, if_neg hxc, Nat.zero_add] at h
      exact List.mem_cons_of_mem _ (ih h)

/-! ### Splitting and joining lines -/

theorem splitLines_no_nl {l : List Char} (h : '\n' ∉ l) : splitLines l = [l] := by
  induction l with
  | nil => rfl
  | cons c cs ih =>
    have hc : ¬(c = '\n') := fun he => h (he ▸ List.mem_cons_self _ _)
    have hcs : '\n' ∉ cs := fun hm => h (List.mem_cons_of_mem _ hm)
    simp [splitLines, hc, ih hcs]

theorem splitLines_append {l : List Char} (rest : List Char) (h : '\n' ∉ l) :
    splitLines (l ++ '\n' :: rest) = l :: splitLines rest := by
  induction l with
  | nil => simp [splitLines]
  | cons c cs ih =>
    have hc : ¬(c = '\n') := fun he => h (he ▸ List.mem_cons_self _ _)
    have hcs : '\n' ∉ cs := fun hm => h (List.mem_cons_of_mem _ hm)
    simp [splitLines, hc, ih hcs]

theorem splitLines_joinLines : ∀ {ls : List (List Char)}, ls ≠ [] →
    (∀ l ∈ ls, '\n' ∉ l) → splitLines (joinLines ls) = ls := by
  intro ls
  induction ls with
  | nil => intro h _; exact absurd rfl h
  | cons l ls ih =>
    intro _ hnl
    cases ls with
    | nil => exact splitLines_no_nl (hnl l (List.mem_cons_self _ _))
    | cons l2 ls2 =>
      show splitLines (l ++ '\n' :: joinLines (l2 :: ls2)) = _
      rw [splitLines_append _ (hnl l (List.mem_cons_self _ _))]
      rw [ih (List.cons_ne_nil _ _) (fun x hx => hnl x (List.mem_cons_of_mem _ hx))]

theorem joinLines_concat : ∀ {xs : List (List Char)} (y : List Char), xs ≠ [] →
    joinLines (xs ++ [y]) = joinLines xs ++ '\n' :: y := by
  intro xs
  induction xs with
  | nil => intro y h; exact absurd rfl h
  | cons x xs ih =>
    intro y _
    cases xs with
    | nil => rfl
    | cons x2 xs2 =>
      show joinLines (x :: ((x2 :: xs2) ++ [y])) = _
      have h2 : (x2 :: xs2) ++ [y] = x2 :: (xs2 ++ [y]) := rfl
      rw [h2]
      show x ++ '\n' :: joinLines (x2 :: (xs2 ++ [y])) = _
      rw [← h2, ih y (List.cons_ne_nil _ _)]
      show x ++ '\n' :: (joinLines (x2 :: xs2) ++ '\n' :: y) = _
      simp [joinLines]

theorem reverse_joinLines : ∀ {ls : List (List Char)}, ls ≠ [] →
    (joinLines ls).reverse = joinLines ((ls.map List.reverse).reverse) := by
  intro ls
  induction ls with
  | nil => intro h; exact absurd rfl h
  | cons l ls ih =>
    intro _
    cases ls with
    | nil => rfl
    | cons l2 ls2 =>
      show (l ++ '\n' :: joinLines (l2 :: ls2)).reverse = _
      rw [List.reverse_append, List.reverse_cons, ih (List.cons_ne_nil _ _)]
      have hm : ((l :: l2 :: ls2).map List.reverse).reverse =
          ((l2 :: ls2).map List.reverse).reverse ++ [l.reverse] := by
        simp [List.reverse_cons]
      rw [hm, joinLines_concat l.reverse (by simp)]
      rw [List.append_assoc, List.singleton_append]

theorem dropWhile_join_self {l0 : List Char} (rest : List (List Char))
    (h0 : l0 ≠ []) (hd : l0.dropWhile pyIsSpace = l0) :
    (joinLines (l0 :: rest)).dropWhile pyIsSpace = joinLines (l0 :: rest) := by
  obtain ⟨c, cs, rfl⟩ := List.exists_cons_of_ne_nil h0
  have hc : pyIsSpace c = false := head_not_of_dropWhile_self hd
  cases rest with
  | nil => exact hd
  | cons r rs =>
    show ((c :: cs) ++ '\n' :: joinLines (r :: rs)).dropWhile pyIsSpace = _
    rw [List.cons_append, List.dropWhile_cons, hc]
    simp only [Bool.false_eq_true, if_false]
    rfl

theorem pyStrip_joinLines {ls : List (List Char)} (hne : ls ≠ [])
    (h : ∀ l ∈ ls, l ≠ [] ∧ l.dropWhile pyIsSpace = l ∧
      l.reverse.dropWhile pyIsSpace = l.reverse) :
    pyStrip (joinLines ls) = joinLines ls := by
  obtain ⟨l0, rest, rfl⟩ := List.exists_cons_of_ne_nil hne
  have h0 := h l0 (List.mem_cons_self _ _)
  have hA : (joinLines (l0 :: rest)).dropWhile pyIsSpace = joinLines (l0 :: rest) :=
    dropWhile_join_self rest h0.1 h0.2.1
  obtain ⟨a, t, hat⟩ := List.exists_cons_of_ne_nil
    (show (l0 :: rest).reverse ≠ [] by simp)
  have ha_mem : a ∈ l0 :: rest := by
    rw [← List.mem_reverse, hat]
    exact List.mem_cons_self _ _
  have ha := h a ha_mem
  have hJrev : (joinLines (l0 :: rest)).reverse =
      joinLines (a.reverse :: t.map List.reverse) := by
    rw [reverse_joinLines (List.cons_ne_nil _ _)]
    rw [← List.map_reverse, hat, List.map_cons]
  have hB : (joinLines (a.reverse :: t.map List.reverse)).dropWhile pyIsSpace =
      joinLines (a.reverse :: t.map List.reverse) :=
    dropWhile_join_self _ (by simp [List.reverse_eq_nil_iff]; exact ha.1) ha.2.2
  unfold pyStrip
  rw [hA, hJrev, hB, ← hJrev, List.reverse_reverse]

/-! ### The completion model of the orchestrator -/

theorem fillSlots_length (f : Nat → List Char × Option (List Char)) :
    ∀ (order : List Nat) (slots : List (Option (List Char × Option (List Char)))),
    (fillSlots f order slots).length = slots.length := by
  intro order
  induction order with
  | nil => intro slots; rfl
  | cons j rest ih =>
    intro slots
    show (fillSlots f rest (slots.set j (some (f j)))).length = _
    rw [ih, List.length_set]

theorem fillSlots_getElem? (f : Nat → List Char × Option (List Char)) :
    ∀ (order : List Nat) (slots : List (Option (List Char × Option (List Char))))
    (i : Nat), i < slots.length →
    (fillSlots f order slots)[i]? =
      if i ∈ order then some (some (f i)) else slots[i]? := by
  intro order
  induction order with
  | nil =>
    intro slots i _
    simp [fillSlots]
  | cons j rest ih =>
    intro slots i hi
    show (fillSlots f rest (slots.set j (some (f j))))[i]? = _
    rw [ih _ i (by rw [List.length_set]; exact hi)]
    by_cases hmem : i ∈ rest
    · simp [hmem]
    · by_cases hij : i = j
      · subst hij
        rw [if_neg hmem, List.getElem?_set, if_pos rfl, if_pos hi]
        simp
      · rw [if_neg hmem, List.getElem?_set_ne (fun h => hij h.symm)]
        have : i ∉ j :: rest := by
          intro hm
          rcases List.mem_cons.1 hm with h1 | h2
          · exact hij h1
          · exact hmem h2
        rw [if_neg this]

/-! ### Claim theorems -/

/-- C9: on every modelled execution path of a session — success,
unsupported platform, navigation failure, interaction failure, payload
timeout or payload-read error — the last session event before the
outcome is returned is closing the browser. -/
theorem browser_closed_last (url : List Char) (w : World) :
    ((process_url_full url w).2).getLast? = some SessionEvent.close := by
  rcases w with ⟨nav, ie, vtt, ti⟩
  cases nav with
  | some e => rfl
  | none =>
    cases hcl : classify url <;> cases ie <;> cases vtt <;>
      simp only [process_url_full, hcl] <;> rfl

/-- C1 counterexample: for the unsupported URL of the spec's own
example, the pipeline does return the unsupported-platform outcome but
only after launching a browser and starting navigation: the claim's
"no browser is launched and no navigation is performed" is false. -/
theorem unsupported_launches_browser_cex :
    classify (strL "https://example.com/video") = PlatformKind.unsupported ∧
    SessionEvent.launch ∈ (process_url_full (strL "https://example.com/video")
      ⟨none, none, VttOutcome.timeout, []⟩).2 ∧
    SessionEvent.navStart ∈ (process_url_full (strL "https://example.com/video")
      ⟨none, none, VttOutcome.timeout, []⟩).2 ∧
    process_url (strL "https://example.com/video")
      ⟨none, none, VttOutcome.timeout, []⟩ = (strL "Unsupported platform", none) := by
  decide

/-- C1 (amended): a URL matching neither platform yields the
"Unsupported platform" failure provided navigation succeeds, but a
browser session is opened and navigation is performed first, and the
browser is closed before the outcome is returned. -/
theorem unsupported_platform_outcome (url : List Char) (w : World)
    (hu : classify url = PlatformKind.unsupported) (hn : w.navError = none) :
    process_url url w = (strL "Unsupported platform", none) ∧
    (process_url_full url w).2 =
      [SessionEvent.launch, SessionEvent.navStart, SessionEvent.navOk,
        SessionEvent.close] := by
  rcases w with ⟨nav, ie, vtt, ti⟩
  obtain rfl : nav = none := hn
  constructor <;> simp only [process_url, process_url_full, hu]

theorem unsupported_platform_outcome_witness :
    classify (strL "http://city.example.org/v") = PlatformKind.unsupported ∧
    (World.mk none (some (strL "boom")) VttOutcome.timeout (strL "t")).navError
      = none ∧
    (process_url (strL "http://city.example.org/v")
        (World.mk none (some (strL "boom")) VttOutcome.timeout (strL "t")) =
      (strL "Unsupported platform", none) ∧
    (process_url_full (strL "http://city.example.org/v")
        (World.mk none (some (strL "boom")) VttOutcome.timeout (strL "t"))).2 =
      [SessionEvent.launch, SessionEvent.navStart, SessionEvent.navOk,
        SessionEvent.close]) :=
  ⟨by decide, rfl, unsupported_platform_outcome _ _ (by decide) rfl⟩

/-- C4: the pending-payload slot is write-once: folding the response
handler over any response sequence records the body of the first
response whose URL contains `.vtt`, and applying the handler to any
response when a payload is already recorded leaves the slot
unchanged. -/
theorem handle_response_write_once :
    (∀ rs : List NetResponse,
      List.foldl handle_response none rs =
        (rs.find? (fun r => hasSub (strL ".vtt") r.url)).map NetResponse.text) ∧
    (∀ (s : BodyRead) (r : NetResponse), handle_response (some s) r = some s) := by
  have hsome : ∀ (s : BodyRead) (r : NetResponse),
      handle_response (some s) r = some s := by
    intro s r
    unfold handle_response
    rw [if_neg]
    rintro ⟨_, h⟩
    exact Option.noConfusion h
  refine ⟨?_, hsome⟩
  intro rs
  induction rs with
  | nil => rfl
  | cons r0 rs ih =>
    show List.foldl handle_response (handle_response none r0) rs = _
    by_cases hm : hasSub (strL ".vtt") r0.url
    · have h0 : handle_response none r0 = some r0.text := by
        unfold handle_response
        rw [if_pos ⟨hm, rfl⟩]
      have hstay : ∀ (rs' : List NetResponse) (x : BodyRead),
          List.foldl handle_response (some x) rs' = some x := by
        intro rs'
        induction rs' with
        | nil => intro x; rfl
        | cons a as iha =>
          intro x
          show List.foldl handle_response (handle_response (some x) a) as = _
          rw [hsome]
          exact iha x
      rw [h0, @List.find?_cons_of_pos NetResponse
        (fun r => hasSub (strL ".vtt") r.url) r0 rs hm, hstay]
      rfl
    · have h0 : handle_response none r0 = none := by
        unfold handle_response
        rw [if_neg]
        rintro ⟨h1, _⟩
        exact hm h1
      rw [h0, @List.find?_cons_of_neg NetResponse
        (fun r => hasSub (strL ".vtt") r.url) r0 rs hm, ih]

/-- C5 counterexample: on input `"abc..."` the sanitized name is
returned unchanged and ends with the marker `...` although its
cleaned, trimmed length is far below 150 — so "ends with the marker iff
cleaned length exceeds 150" is false. -/
theorem sanitize_marker_iff_cex :
    sanitize_filename (strL "abc...") = strL "abc..." ∧
    (strL "...").isSuffixOf (sanitize_filename (strL "abc...")) = true ∧
    (cleanedName (strL "abc...")).length ≤ 150 := by
  decide

/-- C5 (amended): `sanitize` output length is at most 153, and the
truncation marker is appended (output = first 150 cleaned characters
followed by `...`) if and only if the cleaned, trimmed input length
exceeds 150; an untruncated output may still end in `...` if the input
did. -/
theorem sanitize_length_bound (x : List Char) :
    (sanitize_filename x).length ≤ 153 ∧
    (150 < (cleanedName x).length ↔
      sanitize_filename x = (cleanedName x).take 150 ++ strL "...") := by
  unfold sanitize_filename
  by_cases h : 150 < (cleanedName x).length
  · rw [if_pos h]
    constructor
    · rw [List.length_append, List.length_take]
      have h3 : (strL "...").length = 3 := rfl
      rw [h3]
      have hmin := Nat.min_le_left 150 (cleanedName x).length
      omega
    · exact iff_of_true h rfl
  · rw [if_neg h]
    constructor
    · omega
    · apply iff_of_false h
      intro heq
      have hlen := congrArg List.length heq
      rw [List.length_append, List.length_take] at hlen
      have h3 : (strL "...").length = 3 := rfl
      rw [h3] at hlen
      have hmin : min 150 (cleanedName x).length = (cleanedName x).length :=
        Nat.min_eq_right (by omega)
      omega

/-- C3: for any completion order that is a permutation of the task
indices, the orchestrator's output has the length of the input and the
outcome stored at index `i` is the outcome of processing URL `i` —
independent of the completion order. -/
theorem run_all_order_invariant (urls : List (List Char)) (w : Nat → World)
    (order : List Nat) (hperm : order.Perm (List.range urls.length)) :
    run_all urls w order =
      (List.range urls.length).map
        (fun i => some (process_url (urls.getD i []) (w i))) ∧
    (run_all urls w order).length = urls.length := by
  have hlen : (run_all urls w order).length = urls.length := by
    unfold run_all
    rw [fillSlots_length, List.length_replicate]
  refine ⟨?_, hlen⟩
  apply List.ext_getElem?
  intro n
  by_cases hn : n < urls.length
  · unfold run_all
    rw [fillSlots_getElem? _ order _ n (by rw [List.length_replicate]; exact hn)]
    have hmem : n ∈ order := hperm.mem_iff.2 (List.mem_range.2 hn)
    rw [if_pos hmem, List.getElem?_map, List.getElem?_range hn]
    rfl
  · have e1 : (run_all urls w order)[n]? = none :=
      List.getElem?_eq_none (by rw [hlen]; omega)
    have e2 : ((List.range urls.length).map
        (fun i => some (process_url (urls.getD i []) (w i))))[n]? = none :=
      List.getElem?_eq_none (by rw [List.length_map, List.length_range]; omega)
    rw [e1, e2]

theorem run_all_order_invariant_witness :
    ([1, 0].Perm (List.range [strL "u.viebit.com", strL "e"].length)) ∧
    (run_all [strL "u.viebit.com", strL "e"]
        (fun _ => ⟨none, none, VttOutcome.timeout, []⟩) [1, 0] =
      (List.range [strL "u.viebit.com", strL "e"].length).map
        (fun i => some (process_url ([strL "u.viebit.com", strL "e"].getD i [])
          ((fun _ => (⟨none, none, VttOutcome.timeout, []⟩ : World)) i))) ∧
    (run_all [strL "u.viebit.com", strL "e"]
        (fun _ => ⟨none, none, VttOutcome.timeout, []⟩) [1, 0]).length =
      [strL "u.viebit.com", strL "e"].length) :=
  ⟨by decide, run_all_order_invariant _ _ _ (by decide)⟩

/-- Every transcript line arises from a surviving raw line by cleaning,
and is nonempty. -/
theorem mem_parseVttLines_decomp {s c : List Char} (h : c ∈ parseVttLines s) :
    ∃ l, l ∈ splitLines (pyStrip s) ∧ keepLine l = true ∧ c ≠ [] ∧
      c = cleanLine l := by
  rw [parseVttLines_eq] at h
  have h2 : c ∈ cleanedList s := dedupFrom_subset h
  unfold cleanedList cleanedAll at h2
  rw [List.mem_filter] at h2
  obtain ⟨h3, h4⟩ := h2
  rw [List.mem_map] at h3
  obtain ⟨l, hl, hcl⟩ := h3
  rw [List.mem_filter] at hl
  refine ⟨l, hl.1, hl.2, ?_, hcl.symm⟩
  intro hce
  rw [hce] at h4
  simp at h4

/-- C10: the second component of the pair returned by the per-URL
pipeline is non-None exactly on the success path, in which case it is a
filename ending in `.txt`; on every failure path the pair is a reason
string together with None. -/
theorem process_url_pair_discriminates (url : List Char) (w : World) :
    ((process_url url w).2 ≠ none ↔
      (w.navError = none ∧ classify url ≠ PlatformKind.unsupported ∧
        w.interactError = none ∧ ∃ p, w.vtt = VttOutcome.payload p)) ∧
    ((process_url url w).2 = none ∨
      ∃ base, (process_url url w).2 = some (base ++ strL ".txt")) ∧
    ((process_url url w).2 ≠ none ∨
      (process_url url w).1 = strL "Unsupported platform" ∨
      (process_url url w).1 = strL "Timeout waiting for VTT file" ∨
      ∃ e, (process_url url w).1 = strL "Error: " ++ e) := by
  rcases w with ⟨nav, ie, vtt, ti⟩
  cases nav with
  | some e =>
    refine ⟨?_, Or.inl rfl, Or.inr (Or.inr (Or.inr ⟨e, rfl⟩))⟩
    simp [process_url, process_url_full]
  | none =>
    cases hcl : classify url with
    | unsupported =>
      refine ⟨?_, Or.inl ?_, Or.inr (Or.inl ?_)⟩
      · simp [process_url, process_url_full, hcl]
      · simp [process_url, process_url_full, hcl]
      · simp [process_url, process_url_full, hcl]
    | granicus =>
      cases ie with
      | some e =>
        refine ⟨?_, Or.inl ?_, Or.inr (Or.inr (Or.inr ⟨e, ?_⟩))⟩
        · simp [process_url, process_url_full, hcl]
        · simp [process_url, process_url_full, hcl]
        · simp [process_url, process_url_full, hcl]
      | none =>
        cases vtt with
        | timeout =>
          refine ⟨?_, Or.inl ?_, Or.inr (Or.inr (Or.inl ?_))⟩
          · simp [process_url, process_url_full, hcl]
          · simp [process_url, process_url_full, hcl]
          · simp [process_url, process_url_full, hcl]
        | errored e =>
          refine ⟨?_, Or.inl ?_, Or.inr (Or.inr (Or.inr ⟨e, ?_⟩))⟩
          · simp [process_url, process_url_full, hcl]
          · simp [process_url, process_url_full, hcl]
          · simp [process_url, process_url_full, hcl]
        | payload p =>
          refine ⟨?_, Or.inr ⟨sanitize_filename ti, ?_⟩, Or.inl ?_⟩
          · simp [process_url, process_url_full, hcl]
          · simp [process_url, process_url_full, hcl]
          · simp [process_url, process_url_full, hcl]
    | viebit =>
      cases ie with
      | some e =>
        refine ⟨?_, Or.inl ?_, Or.inr (Or.inr (Or.inr ⟨e, ?_⟩))⟩
        · simp [process_url, process_url_full, hcl]
        · simp [process_url, process_url_full, hcl]
        · simp [process_url, process_url_full, hcl]
      | none =>
        cases vtt with
        | timeout =>
          refine ⟨?_, Or.inl ?_, Or.inr (Or.inr (Or.inl ?_))⟩
          · simp [process_url, process_url_full, hcl]
          · simp [process_url, process_url_full, hcl]
          · simp [process_url, process_url_full, hcl]
        | errored e =>
          refine ⟨?_, Or.inl ?_, Or.inr (Or.inr (Or.inr ⟨e, ?_⟩))⟩
          · simp [process_url, process_url_full, hcl]
          · simp [process_url, process_url_full, hcl]
          · simp [process_url, process_url_full, hcl]
        | payload p =>
          refine ⟨?_, Or.inr ⟨sanitize_filename ti, ?_⟩, Or.inl ?_⟩
          · simp [process_url, process_url_full, hcl]
          · simp [process_url, process_url_full, hcl]
          · simp [process_url, process_url_full, hcl]

/-- C2 counterexample: in `">>\n>>"` both raw lines survive the skip
filter and both clean to the empty line, which occurs twice among the
surviving cleaned lines; yet the output contains no occurrence of it
rather than exactly one. -/
theorem dedup_empty_line_cex :
    countL [] (cleanedAll (strL ">>\n>>")) = 2 ∧
    countL [] (parseVttLines (strL ">>\n>>")) = 0 := by
  decide

/-- C2 (amended): for every nonempty cleaned line occurring more than
once among the surviving cleaned lines, the output contains exactly one
occurrence, positioned at the rank of its first occurrence among the
distinct nonempty cleaned lines. -/
theorem parse_vtt_dedup (s c : List Char) (hc : c ≠ [])
    (h2 : 2 ≤ countL c (cleanedAll s)) :
    countL c (parseVttLines s) = 1 ∧
    firstIdx c (parseVttLines s) =
      (dedupFrom [] ((cleanedList s).take
        (firstIdx c (cleanedList s)))).length := by
  have hcl : countL c (cleanedList s) = countL c (cleanedAll s) :=
    countL_filter_nonempty hc _
  have hmem : c ∈ cleanedList s := mem_of_countL_pos (by omega)
  rw [parseVttLines_eq]
  exact ⟨countL_dedupFrom_one c (cleanedList s) [] (List.not_mem_nil c) hmem,
    firstIdx_dedupFrom c (cleanedList s) [] (List.not_mem_nil c) hmem⟩

theorem parse_vtt_dedup_witness :
    (strL "x" ≠ ([] : List Char) ∧
      2 ≤ countL (strL "x") (cleanedAll (strL "x\nx"))) ∧
    (countL (strL "x") (parseVttLines (strL "x\nx")) = 1 ∧
      firstIdx (strL "x") (parseVttLines (strL "x\nx")) =
        (dedupFrom [] ((cleanedList (strL "x\nx")).take
          (firstIdx (strL "x") (cleanedList (strL "x\nx"))))).length) :=
  ⟨⟨by decide, by decide⟩, parse_vtt_dedup _ _ (by decide) (by decide)⟩

/-- C6 counterexample: in the line `"a >> b"` the marker occurs only in
the interior, yet the parser removes it: the output line is `"a b"`,
not the claimed `"a >> b"`. -/
theorem marker_interior_cex :
    parseVttLines (strL "a >> b") = [strL "a b"] ∧
    parseVttLines (strL "a >> b") ≠ [strL "a >> b"] := by
  decide

/-- C6 (amended): the parser removes every occurrence of the marker
pattern (two marker glyphs and following whitespace) throughout the
line — not only as a prefix — and then trims: each output line is the
fully marker-stripped, trimmed form of a surviving raw line, and no
output line contains the marker pair. -/
theorem marker_strip_everywhere (s c : List Char) (h : c ∈ parseVttLines s) :
    (∃ l, l ∈ splitLines (pyStrip s) ∧ keepLine l = true ∧
      c = pyStrip (stripMarkers l)) ∧
    hasSub (strL ">>") c = false := by
  obtain ⟨l, hl, hk, hne, hc⟩ := mem_parseVttLines_decomp h
  refine ⟨⟨l, hl, hk, hc⟩, ?_⟩
  cases hb : hasSub (strL ">>") c with
  | false => rfl
  | true =>
    rw [hc] at hb
    unfold cleanLine at hb
    have ht := hasSub_pyStrip hb
    have hfalse : hasSub (strL ">>") (stripMarkers l) = false :=
      stripAux_no_marker false l
    rw [hfalse] at ht
    exact absurd ht (by decide)

theorem marker_strip_everywhere_witness :
    strL "a b" ∈ parseVttLines (strL "a >> b") ∧
    ((∃ l, l ∈ splitLines (pyStrip (strL "a >> b")) ∧ keepLine l = true ∧
      strL "a b" = pyStrip (stripMarkers l)) ∧
    hasSub (strL ">>") (strL "a b") = false) :=
  ⟨by decide, marker_strip_everywhere _ _ (by decide)⟩

/-- C7 counterexample: the parser is not idempotent on its own output
(`"WEB>>VTT"` parses to the header token, which a second parse
deletes), and inputs with an untrimmed line or a blank line are not
reproduced either. -/
theorem parse_idem_cex :
    parse_vtt (strL "WEB>>VTT") = strL "WEBVTT" ∧
    parse_vtt (parse_vtt (strL "WEB>>VTT")) ≠ parse_vtt (strL "WEB>>VTT") ∧
    parse_vtt (strL "a \nb") = strL "a\nb" ∧ strL "a \nb" ≠ strL "a\nb" ∧
    parse_vtt (strL "a\n\nb") = strL "a\nb" ∧ strL "a\n\nb" ≠ strL "a\nb" := by
  decide

/-- C7 (amended): the parser reproduces exactly — in content and order —
any input whose lines are nonempty, trimmed, pairwise distinct, contain
no newline, no header token, no cue-timing delimiter, no marker pair,
and are not composed solely of digits.  Parser outputs need not satisfy
the header/digit/delimiter conditions, so idempotence on outputs can
fail. -/
theorem parse_idempotent_clean (ls : List (List Char)) (hne : ls ≠ [])
    (h : ∀ l ∈ ls, l ≠ [] ∧ pyStrip l = l ∧ '\n' ∉ l ∧
      hasSub (strL "WEBVTT") l = false ∧ hasSub (strL "-->") l = false ∧
      pyIsdigit l = false ∧ hasSub (strL ">>") l = false)
    (hnd : ls.Nodup) :
    parseVttLines (joinLines ls) = ls ∧
    parse_vtt (joinLines ls) = joinLines ls := by
  have hstrip : pyStrip (joinLines ls) = joinLines ls := by
    apply pyStrip_joinLines hne
    intro l hl
    obtain ⟨h1, h2, _⟩ := h l hl
    have hp := pyStrip_parts h2
    exact ⟨h1, hp.1, hp.2⟩
  have hsplit : splitLines (joinLines ls) = ls :=
    splitLines_joinLines hne (fun l hl => (h l hl).2.2.1)
  have hmain : parseVttLines (joinLines ls) = ls := by
    unfold parseVttLines
    rw [hstrip, hsplit, parseLoop_eq]
    have hkeep : ls.filter keepLine = ls := by
      rw [List.filter_eq_self]
      intro l hl
      obtain ⟨h1, h2, h3, h4, h5, h6, h7⟩ := h l hl
      unfold keepLine
      rw [h2, h4, h5, h6]
      simp [List.isEmpty_iff, h1]
    have hclean : ls.map cleanLine = ls := by
      have hid : ∀ l ∈ ls, cleanLine l = id l := by
        intro l hl
        obtain ⟨h1, h2, h3, h4, h5, h6, h7⟩ := h l hl
        unfold cleanLine
        rw [stripMarkers_eq_self h7, h2]
        rfl
      rw [List.map_congr_left hid, List.map_id]
    have hfil2 : ls.filter (fun c => !c.isEmpty) = ls := by
      rw [List.filter_eq_self]
      intro l hl
      simp [List.isEmpty_iff, (h l hl).1]
    rw [hkeep, hclean, hfil2]
    exact dedupFrom_eq_self ls [] hnd (fun c _ => List.not_mem_nil c)
  exact ⟨hmain, by unfold parse_vtt; rw [hmain]⟩

theorem parse_idempotent_clean_witness :
    ([strL "b", strL "a"] ≠ ([] : List (List Char)) ∧
      (∀ l ∈ [strL "b", strL "a"], l ≠ [] ∧ pyStrip l = l ∧ '\n' ∉ l ∧
        hasSub (strL "WEBVTT") l = false ∧ hasSub (strL "-->") l = false ∧
        pyIsdigit l = false ∧ hasSub (strL ">>") l = false) ∧
      [strL "b", strL "a"].Nodup) ∧
    (parseVttLines (joinLines [strL "b", strL "a"]) = [strL "b", strL "a"] ∧
      parse_vtt (joinLines [strL "b", strL "a"]) =
        joinLines [strL "b", strL "a"]) :=
  ⟨⟨by decide, by decide, by decide⟩,
    parse_idempotent_clean _ (by decide) (by decide) (by decide)⟩

/-- C8 counterexample: marker removal can synthesize each excluded
shape: `"WEB>>VTT"` yields an output line equal to the header token,
`"4>>2"` yields a digits-only output line, and `"a->>->b"` yields an
output line containing the cue-timing delimiter. -/
theorem exclusion_cex :
    strL "WEBVTT" ∈ parseVttLines (strL "WEB>>VTT") ∧
    strL "42" ∈ parseVttLines (strL "4>>2") ∧ pyIsdigit (strL "42") = true ∧
    strL "a-->b" ∈ parseVttLines (strL "a->>->b") ∧
    hasSub (strL "-->") (strL "a-->b") = true := by
  decide

/-- C8 (amended): for inputs none of whose lines contains the marker
pair, no output line equals the header token, is composed solely of
digits, or contains the cue-timing delimiter. -/
theorem parse_exclusion_markerfree (s : List Char)
    (hm : ∀ l ∈ splitLines (pyStrip s), hasSub (strL ">>") l = false) :
    ∀ c ∈ parseVttLines s,
      c ≠ strL "WEBVTT" ∧ pyIsdigit c = false ∧
        hasSub (strL "-->") c = false := by
  intro c hcm
  obtain ⟨l, hl, hk, hne, hc⟩ := mem_parseVttLines_decomp hcm
  have hsm : stripMarkers l = l := stripMarkers_eq_self (hm l hl)
  have hcc : c = pyStrip l := by
    rw [hc]
    unfold cleanLine
    rw [hsm]
  unfold keepLine at hk
  simp only [Bool.and_eq_true, Bool.not_eq_true'] at hk
  obtain ⟨⟨⟨h1, h2⟩, h3⟩, h4⟩ := hk
  refine ⟨?_, ?_, ?_⟩
  · intro heq
    have hin : hasSub (strL "WEBVTT") (pyStrip l) = true := by
      rw [← hcc, heq]
      exact hasSub_self _
    have ht := hasSub_pyStrip hin
    rw [h2] at ht
    exact absurd ht (by decide)
  · rw [hcc]
    exact h4
  · cases hb : hasSub (strL "-->") c with
    | false => rfl
    | true =>
      rw [hcc] at hb
      have ht := hasSub_pyStrip hb
      rw [h3] at ht
      exact absurd ht (by decide)

theorem parse_exclusion_markerfree_witness :
    (∀ l ∈ splitLines (pyStrip (strL "hello\nworld")),
      hasSub (strL ">>") l = false) ∧
    (strL "hello" ≠ strL "WEBVTT" ∧ pyIsdigit (strL "hello") = false ∧
      hasSub (strL "-->") (strL "hello") = false) :=
  ⟨by decide, parse_exclusion_markerfree (strL "hello\nworld") (by decide)
    (strL "hello") (by decide)⟩
